import Mathlib

/-!
Verification of the MetaSUB London metadata cleaning pipeline.

Shallow embedding of the cleaning and aggregation logic of
`Underground Microbial Landscape/test1.py` (`clean_london_metadata`,
`first_nonnull`, `pick_station`) and of the surface canonicalizer
`pythonProject7/test2.py` (`canon_surface`).

Modelling conventions:
* A dataframe cell is `Option String` (`none` = pandas NaN/NA); the
  `num_reads` cell is `Option Int`, the result of
  `pd.to_numeric(..., errors="coerce")` (`none` = missing or non-numeric).
* Strings are manipulated through their character lists so that every
  definition reduces in the kernel (`String.trim`, `String.lt` and
  `String.map` from core do not).
* `df.sort_values(["sample_id", "num_reads"], ascending=[True, False])`
  followed by `groupby("sample_id", as_index=False).agg(...)` is modelled
  per key: pandas' multi-column sort is a stable lexsort with NaN placed
  last, and `groupby` (default `dropna=True`, `sort=True`) drops rows whose
  key is NaN, visits the remaining keys in ascending order and hands each
  aggregator the rows of that key in frame order.  Hence for each non-null
  key the aggregated rows are exactly the rows carrying that key, stably
  sorted by descending `num_reads` with missing read counts last.
-/

/-- Boolean lexicographic comparison of character lists (code-point order,
the order Python uses to sort strings). -/
def listLeB : List Char → List Char → Bool
  | [], _ => true
  | _ :: _, [] => false
  | a :: as, b :: bs => if a < b then true else if b < a then false else listLeB as bs

/-- Code-point comparison of strings, as a Boolean. -/
def strLeB (a b : String) : Bool := listLeB a.toList b.toList

/-- Code-point comparison of strings, as a proposition. -/
def strLe (a b : String) : Prop := strLeB a b = true

instance : DecidableRel strLe := fun a b => by unfold strLe; infer_instance

/-- Python `str.strip()` on a character list: drop leading and trailing
whitespace. -/
def trimChars (l : List Char) : List Char :=
  ((l.dropWhile Char.isWhitespace).reverse.dropWhile Char.isWhitespace).reverse

/-- Python `str.strip()` on a string. -/
def strTrim (s : String) : String := String.mk (trimChars s.toList)

/-- Python `str.lower()` (ASCII case mapping, which covers every literal the
scripts compare against). -/
def lowerStr (s : String) : String := String.mk (s.toList.map Char.toLower)

/-- Python `str.upper()`. -/
def upperStr (s : String) : String := String.mk (s.toList.map Char.toUpper)

/-- Does `l` start with `pat`? -/
def hasPre : List Char → List Char → Bool
  | [], _ => true
  | _ :: _, [] => false
  | a :: ps, b :: ls => a == b && hasPre ps ls

/-- Does `l` contain `pat` as a contiguous run? -/
def hasSubAux (pat : List Char) : List Char → Bool
  | [] => pat.isEmpty
  | b :: ls => hasPre pat (b :: ls) || hasSubAux pat ls

/-- Python `pat in s` substring test. -/
def hasSubStr (s pat : String) : Bool := hasSubAux pat.toList s.toList

/-- The metadata columns kept by the cleaning script that the claims are
about (`keep_cols` in `clean_london_metadata`, minus the numeric
`num_reads`, which is modelled separately). -/
inductive Col where
  | sl_name
  | metasub_name
  | uuid
  | project
  | city
  | station
  | line
  | sample_type
  | surface
  | surface_material
deriving DecidableEq, Fintype

/-- A raw row of the London-filtered frame: the kept string cells plus the
numerically coerced `num_reads` cell. -/
structure Record where
  cols : Col → Option String
  num_reads : Option Int

instance : DecidableEq Record := fun a b =>
  decidable_of_iff (a.cols = b.cols ∧ a.num_reads = b.num_reads)
    (by cases a; cases b; simp)

/-- Helper to build a concrete row's string cells. -/
def mkCols (sl ms uu pr ci st ln ty su ma : Option String) : Col → Option String
  | .sl_name => sl
  | .metasub_name => ms
  | .uuid => uu
  | .project => pr
  | .city => ci
  | .station => st
  | .line => ln
  | .sample_type => ty
  | .surface => su
  | .surface_material => ma

/-- The pandas mask `sample_id.isna() | (sample_id.astype(str).str.strip() == "")`
applied to one cell: missing, or blank after trimming.  (For a non-null
string cell `astype(str)` is the identity; for NaN the `isna` disjunct
already fires.) -/
def missingOrBlank : Option String → Bool
  | none => true
  | some s => strTrim s == ""

/-- The sample identifier fallback chain of `clean_london_metadata` step 3:
start from `sl_name`; where that is missing or blank take `metasub_name`;
where the result is still missing or blank take `uuid` (unconditionally of
what `uuid` holds). -/
def resolve3 (sl ms uu : Option String) : Option String :=
  if missingOrBlank sl then (if missingOrBlank ms then uu else ms) else sl

/-- The resolved `sample_id` cell of a raw row. -/
def resolve (r : Record) : Option String :=
  resolve3 (r.cols .sl_name) (r.cols .metasub_name) (r.cols .uuid)

/-- Order on `num_reads` cells with missing as the bottom element. -/
def optLeB : Option Int → Option Int → Bool
  | none, _ => true
  | some _, none => false
  | some x, some y => x ≤ y

/-- Strict version of `optLeB`. -/
def optLtB (a b : Option Int) : Bool := !(optLeB b a)

/-- Row comparison realising `sort_values("num_reads", ascending=False)`
with `na_position="last"`: `a` may come before `b` iff `b`'s read count is
at most `a`'s (missing counting as smallest). -/
def readsGe (a b : Record) : Prop := optLeB b.num_reads a.num_reads = true

instance : DecidableRel readsGe := fun a b => by unfold readsGe; infer_instance

/-- `first_nonnull` of `test1.py`: `s.dropna().iloc[0]` if non-empty, else NA. -/
def first_nonnull (l : List (Option String)) : Option String :=
  (l.filterMap id).head?

/-- One row of the aggregated (canonical) frame `lon_clean`: the group key
`sample_id`, the aggregated kept columns, the summed `num_reads` (pandas'
`sum` over a non-empty group always yields a number), and the
`station_name` column added in step 6. -/
structure OutRecord where
  sample_id : String
  cols : Col → Option String
  num_reads : Int
  station_name : Option String

instance : DecidableEq OutRecord := fun a b =>
  decidable_of_iff
    (a.sample_id = b.sample_id ∧ a.cols = b.cols ∧ a.num_reads = b.num_reads ∧
      a.station_name = b.station_name)
    (by cases a; cases b; simp)

/-- The rows of the frame carrying a given (non-null) resolved key, in frame
order. -/
def groupRows (rows : List Record) (k : String) : List Record :=
  rows.filter (fun r => resolve r == some k)

/-- Stable sort of a group by descending read count, missing last — the
order in which `sort_values(["sample_id","num_reads"], ascending=[True,False])`
leaves the rows of one key. -/
def sortReads (g : List Record) : List Record :=
  List.insertionSort readsGe g

/-- Aggregation of one identifier group, as in step 5 of the script:
`num_reads` is summed with NaN skipped (`agg["num_reads"] = "sum"`), every
other kept column gets `first_nonnull` of the group in sorted order (the
aggregation dict is built uniformly over the columns).  `station_name` does
not exist yet at this stage. -/
def aggregate (rows : List Record) (k : String) : OutRecord :=
  { sample_id := k
    cols := fun c => first_nonnull ((sortReads (groupRows rows k)).map (fun r => r.cols c))
    num_reads := ((sortReads (groupRows rows k)).filterMap Record.num_reads).sum
    station_name := none }

/-- The distinct non-null keys of the frame in ascending order: `groupby`
drops rows whose key is NaN and visits the remaining keys sorted. -/
def groupKeys (rows : List Record) : List String :=
  List.insertionSort strLe (rows.filterMap resolve).dedup

/-- The deduplicated canonical frame `lon_clean` (steps 3–5 of
`clean_london_metadata`), one row per distinct non-null `sample_id`. -/
def lon_clean (rows : List Record) : List OutRecord :=
  (groupKeys rows).map (aggregate rows)

/-- The test `pd.notna(v) and str(v).strip() not in ["", "nan", "None"]`
from `pick_station`. -/
def notBadVal : Option String → Bool
  | none => false
  | some s => !(strTrim s == "" || strTrim s == "nan" || strTrim s == "None")

/-- `pick_station` of `test1.py`: prefer the `station` cell, else the
`line` cell, else NA, where a cell is usable when it is non-null and its
stripped text is none of `""`, `"nan"`, `"None"`. -/
def pick_station (st ln : Option String) : Option String :=
  if notBadVal st then st else if notBadVal ln then ln else none

/-- Step 6: add the derived `station_name` column to a canonical row. -/
def addStation (o : OutRecord) : OutRecord :=
  { o with station_name := pick_station (o.cols .station) (o.cols .line) }

/-- The canonical frame with its `station_name` column filled in. -/
def lonAll (rows : List Record) : List OutRecord :=
  (lon_clean rows).map addStation

/-- `str(v)` on a cell: pandas `astype(str)` renders NaN as `"nan"`. -/
def strOfOpt : Option String → String
  | none => "nan"
  | some s => s

/-- The air test of step 7:
`(project_norm == "CSD17_AIR") | stype_norm.str.contains("air", na=False)`
after `project_norm = project.astype(str).str.upper()` and
`stype_norm = sample_type.astype(str).str.lower()`. -/
def isAir (o : OutRecord) : Bool :=
  upperStr (strOfOpt (o.cols .project)) == "CSD17_AIR" ||
    hasSubStr (lowerStr (strOfOpt (o.cols .sample_type))) "air"

/-- The air partition `lon_air`. -/
def lon_air (rows : List Record) : List OutRecord :=
  (lonAll rows).filter isAir

/-- The surface partition `lon_surface = lon_clean.drop(lon_air.index)`:
the canonical rows that did not go to the air partition. -/
def lon_surface (rows : List Record) : List OutRecord :=
  (lonAll rows).filter (fun o => !(isAir o))

/-- Python `str(s).split(";")` on a character list: always at least one
part, empty parts kept. -/
def splitSemi : List Char → List (List Char)
  | [] => [[]]
  | c :: cs =>
    if c = ';' then [] :: splitSemi cs
    else
      match splitSemi cs with
      | [] => [[c]]
      | p :: ps => (c :: p) :: ps

/-- Python `";".join(parts)` on character lists. -/
def joinSemi : List (List Char) → List Char
  | [] => []
  | [p] => p
  | p :: q :: ps => p ++ ';' :: joinSemi (q :: ps)

/-- One step of the comprehension in `canon_surface`:
`p.strip().lower()` kept only `if p.strip()` is non-empty. -/
def cleanPart (p : List Char) : Option String :=
  if (trimChars p).isEmpty then none
  else some (String.mk ((trimChars p).map Char.toLower))

/-- The cleaned, sorted part list of `canon_surface` (the local variable
`parts` after `parts = sorted(parts)`). -/
def canonParts (s : String) : List String :=
  List.insertionSort strLe ((splitSemi s.toList).filterMap cleanPart)

/-- `canon_surface` of `test2.py`: NaN maps to NaN; otherwise split on `;`,
strip and lower-case each part, drop blank parts, sort, and rejoin — an
empty part list maps to NaN. -/
def canon_surface : Option String → Option String
  | none => none
  | some s =>
    if (canonParts s).isEmpty then none
    else some (String.mk (joinSemi ((canonParts s).map String.toList)))

/-- Claim-side ordering for the aggregation rule: position-tagged row `a`
precedes `b` when `a` has the strictly larger read count, or the counts are
equal (both possibly missing) and `a` came first in the input. -/
def lexBefore (a b : Nat × Record) : Prop :=
  optLtB b.2.num_reads a.2.num_reads = true ∨
    (a.2.num_reads = b.2.num_reads ∧ a.1 ≤ b.1)

instance : DecidableRel lexBefore := fun a b => by unfold lexBefore; infer_instance

/-- Claim-side group ordering: the rows of key `k`, ordered by descending
read count with ties broken by original input position. -/
def specOrdered (rows : List Record) (k : String) : List Record :=
  (List.insertionSort lexBefore
    (rows.enum.filter (fun p => resolve p.2 == some k))).map Prod.snd

/-- Claim-side usability test of the station-name rule as C7 amends it:
the cell holds a string whose stripped text is none of `""`, `"nan"`,
`"None"`. -/
def keepVal (v : Option String) : Prop :=
  ∃ s, v = some s ∧ strTrim s ≠ "" ∧ strTrim s ≠ "nan" ∧ strTrim s ≠ "None"

instance (v : Option String) : Decidable (keepVal v) :=
  match v with
  | none => isFalse (by rintro ⟨s, h, _⟩; exact Option.noConfusion h)
  | some s =>
    decidable_of_iff (strTrim s ≠ "" ∧ strTrim s ≠ "nan" ∧ strTrim s ≠ "None")
      (by
        constructor
        · intro h; exact ⟨s, rfl, h⟩
        · rintro ⟨t, ht, h⟩; cases Option.some.inj ht; exact h)

/-- Claim-side air condition of C5: the project cell holds a string whose
upper-casing is the sentinel, or the sample-type cell holds a string whose
lower-casing contains `"air"`. -/
def airSpec (o : OutRecord) : Prop :=
  (∃ p, o.cols .project = some p ∧ upperStr p = "CSD17_AIR") ∨
    (∃ t, o.cols .sample_type = some t ∧ hasSubStr (lowerStr t) "air" = true)

/-! Concrete inputs used by the witnesses and counterexamples. -/

/-- A raw row whose three candidate identity fields are all null. -/
def rowAllNull : Record :=
  ⟨mkCols none none none none (some "london") none none none none none, some 5⟩

/-- Two raw rows of the same physical sample (two flowcells): blank
`sl_name`, same `metasub_name`, read counts 100 and 50. -/
def rowsM1 : List Record :=
  [⟨mkCols (some "") (some "M1") (some "u1") none (some "london") (some "")
      (some "Central") none (some "Bench ; Platform") none, some 100⟩,
   ⟨mkCols (some "") (some "M1") (some "u1") none (some "london") none
      (some "Victoria") none none none, some 50⟩]

/-- The canonical row the pipeline produces for key `"M1"` of `rowsM1`. -/
def outM1 : OutRecord := aggregate rowsM1 "M1"

/-- A single raw row with a missing read count. -/
def rowNoReads : Record :=
  ⟨mkCols none none (some "u1") (some "CSD17_AIR") (some "london")
    (some "X") none (some "thing") none none, none⟩

/-- The canonical row for `rowNoReads`. -/
def outNoReads : OutRecord := aggregate [rowNoReads] "u1"

/-- A single raw row with a present read count. -/
def rowOneRead : Record :=
  ⟨mkCols none none (some "u2") none (some "london") (some "Oval")
    (some "Northern") (some "swab") (some "bench") (some "metal"), some 7⟩

/-- The canonical row for `rowOneRead`. -/
def outOneRead : OutRecord := aggregate [rowOneRead] "u2"

/-- The canonical air row built from `rowNoReads`, station column filled. -/
def outAir : OutRecord := addStation (aggregate [rowNoReads] "u1")

/-! Order lemmas for the code-point comparison. -/

theorem listLeB_total : ∀ a b : List Char, listLeB a b = true ∨ listLeB b a = true
  | [], _ => Or.inl rfl
  | _ :: _, [] => Or.inr rfl
  | a :: as, b :: bs => by
    rcases lt_trichotomy a b with h | h | h
    · left; simp [listLeB, h]
    · subst h
      rcases listLeB_total as bs with h2 | h2
      · left; simp [listLeB, h2]
      · right; simp [listLeB, h2]
    · right; simp [listLeB, h]

theorem listLeB_trans : ∀ a b c : List Char,
    listLeB a b = true → listLeB b c = true → listLeB a c = true
  | [], _, _ => by intro _ _; rfl
  | _ :: _, [], _ => by intro h _; simp [listLeB] at h
  | _ :: _, _ :: _, [] => by intro _ h; simp [listLeB] at h
  | a :: as, b :: bs, c :: cs => by
    intro h1 h2
    rcases lt_trichotomy a b with hab | hab | hab
    · rcases lt_trichotomy b c with hbc | hbc | hbc
      · simp [listLeB, lt_trans hab hbc]
      · subst hbc; simp [listLeB, hab]
      · simp [listLeB, hbc, lt_asymm hbc] at h2
    · subst hab
      simp only [listLeB, lt_irrefl, if_false] at h1
      rcases lt_trichotomy a c with hac | hac | hac
      · simp [listLeB, hac]
      · subst hac
        simp only [listLeB, lt_irrefl, if_false] at h2 ⊢
        exact listLeB_trans as bs cs h1 h2
      · simp [listLeB, hac, lt_asymm hac] at h2
    · simp [listLeB, hab, lt_asymm hab] at h1

theorem listLeB_antisymm : ∀ a b : List Char,
    listLeB a b = true → listLeB b a = true → a = b
  | [], [] => fun _ _ => rfl
  | [], _ :: _ => fun _ h => by simp [listLeB] at h
  | _ :: _, [] => fun h _ => by simp [listLeB] at h
  | a :: as, b :: bs => fun h1 h2 => by
    rcases lt_trichotomy a b with hab | hab | hab
    · simp [listLeB, hab, lt_asymm hab] at h2
    · subst hab
      simp only [listLeB, lt_irrefl, if_false] at h1 h2
      rw [listLeB_antisymm as bs h1 h2]
    · simp [listLeB, hab, lt_asymm hab] at h1

instance : IsTotal String strLe := ⟨fun a b => listLeB_total a.toList b.toList⟩

instance : IsTrans String strLe :=
  ⟨fun a b c h1 h2 => listLeB_trans a.toList b.toList c.toList h1 h2⟩

instance : IsAntisymm String strLe :=
  ⟨fun a b h1 h2 => String.ext (listLeB_antisymm a.toList b.toList h1 h2)⟩

/-- Sorting strings in code-point order is a function of the multiset of
inputs. -/
theorem sortStrings_congr {l1 l2 : List String} (h : l1.Perm l2) :
    List.insertionSort strLe l1 = List.insertionSort strLe l2 :=
  List.eq_of_perm_of_sorted
    ((List.perm_insertionSort strLe l1).trans
      (h.trans (List.perm_insertionSort strLe l2).symm))
    (List.sorted_insertionSort strLe l1) (List.sorted_insertionSort strLe l2)

/-! Facts about ASCII case mapping. -/

theorem charOfNat_toNat {n : Nat} (h : n.isValidChar) : (Char.ofNat n).toNat = n := by
  rw [Char.ofNat, dif_pos h]; rfl

theorem charToLower_idem (c : Char) :
    Char.toLower (Char.toLower c) = Char.toLower c := by
  by_cases h : c.toNat ≥ 65 ∧ c.toNat ≤ 90
  · obtain ⟨h65, h90⟩ := h
    have hv : Nat.isValidChar (c.toNat + 32) := Or.inl (by omega)
    have h1 : Char.toLower c = Char.ofNat (c.toNat + 32) := by
      simp only [Char.toLower]; rw [if_pos ⟨h65, h90⟩]
    rw [h1]
    simp only [Char.toLower]
    rw [charOfNat_toNat hv, if_neg (by omega)]
  · have h1 : Char.toLower c = c := by simp only [Char.toLower]; rw [if_neg h]
    rw [h1, h1]

theorem charToLower_semi {c : Char} (h : Char.toLower c = ';') : c = ';' := by
  by_cases hc : c.toNat ≥ 65 ∧ c.toNat ≤ 90
  · exfalso
    obtain ⟨h65, h90⟩ := hc
    have hv : Nat.isValidChar (c.toNat + 32) := Or.inl (by omega)
    have h1 : Char.toLower c = Char.ofNat (c.toNat + 32) := by
      simp only [Char.toLower]; rw [if_pos ⟨h65, h90⟩]
    rw [h1] at h
    have h2 := congrArg Char.toNat h
    rw [charOfNat_toNat hv] at h2
    have h3 : (';' : Char).toNat = 59 := rfl
    omega
  · simp only [Char.toLower] at h
    rw [if_neg hc] at h
    exact h

theorem ws_false_of_big {x : Char} (hx : 33 ≤ x.toNat) : x.isWhitespace = false := by
  have h1 : x ≠ ' ' := by intro h; subst h; revert hx; decide
  have h2 : x ≠ '\t' := by intro h; subst h; revert hx; decide
  have h3 : x ≠ '\x0d' := by intro h; subst h; revert hx; decide
  have h4 : x ≠ '\n' := by intro h; subst h; revert hx; decide
  simp [Char.isWhitespace, h1, h2, h3, h4]

theorem charToLower_ws (c : Char) :
    (Char.toLower c).isWhitespace = c.isWhitespace := by
  by_cases h : c.toNat ≥ 65 ∧ c.toNat ≤ 90
  · obtain ⟨h65, h90⟩ := h
    have hv : Nat.isValidChar (c.toNat + 32) := Or.inl (by omega)
    have h1 : Char.toLower c = Char.ofNat (c.toNat + 32) := by
      simp only [Char.toLower]; rw [if_pos ⟨h65, h90⟩]
    rw [h1, ws_false_of_big (by rw [charOfNat_toNat hv]; omega),
      ws_false_of_big (by omega)]
  · have h1 : Char.toLower c = c := by simp only [Char.toLower]; rw [if_neg h]
    rw [h1]

/-! Facts about trimming. -/

theorem dropWhile_twice {α : Type} (p : α → Bool) :
    ∀ l : List α, (l.dropWhile p).dropWhile p = l.dropWhile p
  | [] => rfl
  | a :: l => by
    by_cases h : p a = true
    · rw [List.dropWhile_cons, if_pos h, dropWhile_twice p l]
    · rw [List.dropWhile_cons, if_neg h, List.dropWhile_cons, if_neg h]

theorem dropWhile_suffix {α : Type} (p : α → Bool) : ∀ l : List α, l.dropWhile p <:+ l
  | [] => List.suffix_refl _
  | a :: l => by
    by_cases h : p a = true
    · rw [List.dropWhile_cons, if_pos h]
      exact (dropWhile_suffix p l).trans (List.suffix_cons a l)
    · rw [List.dropWhile_cons, if_neg h]

theorem dropWhile_eq_self_of_prefix {p : Char → Bool} {t l : List Char}
    (hpre : t <+: l) (hl : l.dropWhile p = l) : t.dropWhile p = t := by
  cases t with
  | nil => rfl
  | cons c t' =>
    obtain ⟨rest, hrest⟩ := hpre
    have hc : p c = false := by
      by_contra hc
      rw [Bool.not_eq_false] at hc
      rw [← hrest, List.cons_append, List.dropWhile_cons, if_pos hc] at hl
      have hlen := List.Sublist.length_le (List.dropWhile_sublist (l := t' ++ rest) p)
      rw [hl] at hlen
      simp at hlen
    rw [List.dropWhile_cons, if_neg (by simp [hc])]

theorem trim_prefix_dropWhile (l : List Char) :
    trimChars l <+: l.dropWhile Char.isWhitespace := by
  have h := dropWhile_suffix Char.isWhitespace (l.dropWhile Char.isWhitespace).reverse
  have h2 := List.reverse_prefix.mpr h
  rw [List.reverse_reverse] at h2
  exact h2

theorem trim_rev_aux (l : List Char) :
    ((trimChars l).reverse.dropWhile Char.isWhitespace).reverse = trimChars l := by
  have h : (trimChars l).reverse
      = ((l.dropWhile Char.isWhitespace).reverse).dropWhile Char.isWhitespace := by
    rw [show trimChars l
        = (((l.dropWhile Char.isWhitespace).reverse).dropWhile Char.isWhitespace).reverse
      from rfl, List.reverse_reverse]
  rw [h, dropWhile_twice, ← h, List.reverse_reverse]

theorem trimChars_idem (l : List Char) : trimChars (trimChars l) = trimChars l := by
  have hA : (l.dropWhile Char.isWhitespace).dropWhile Char.isWhitespace
      = l.dropWhile Char.isWhitespace := dropWhile_twice _ l
  have h1 : (trimChars l).dropWhile Char.isWhitespace = trimChars l :=
    dropWhile_eq_self_of_prefix (trim_prefix_dropWhile l) hA
  have h2 : trimChars (trimChars l)
      = (((trimChars l).dropWhile Char.isWhitespace).reverse.dropWhile
          Char.isWhitespace).reverse := rfl
  rw [h2, h1, trim_rev_aux]

theorem trimChars_map_toLower (l : List Char) :
    trimChars (l.map Char.toLower) = (trimChars l).map Char.toLower := by
  have hf : (Char.isWhitespace ∘ Char.toLower) = Char.isWhitespace :=
    funext charToLower_ws
  unfold trimChars
  rw [List.dropWhile_map, hf, ← List.map_reverse, List.dropWhile_map, hf,
    ← List.map_reverse]

theorem mem_of_mem_trimChars {c : Char} {l : List Char} (h : c ∈ trimChars l) :
    c ∈ l := by
  unfold trimChars at h
  rw [List.mem_reverse] at h
  have h2 := List.Sublist.mem h (List.dropWhile_sublist _)
  rw [List.mem_reverse] at h2
  exact List.Sublist.mem h2 (List.dropWhile_sublist _)

/-! Facts about splitting on and rejoining with `;`. -/

theorem splitSemi_ne_nil : ∀ l : List Char, splitSemi l ≠ []
  | [] => by simp [splitSemi]
  | c :: cs => by
    by_cases h : c = ';'
    · simp [splitSemi, h]
    · have := splitSemi_ne_nil cs
      cases hs : splitSemi cs with
      | nil => exact absurd hs this
      | cons p ps => simp [splitSemi, h, hs]

theorem splitSemi_no_semi : ∀ (l : List Char) (p : List Char),
    p ∈ splitSemi l → ';' ∉ p
  | [], p => by
    intro hp
    simp [splitSemi] at hp
    simp [hp]
  | c :: cs, p => by
    intro hp
    by_cases h : c = ';'
    · rw [splitSemi, if_pos h] at hp
      rcases List.mem_cons.mp hp with h2 | h2
      · simp [h2]
      · exact splitSemi_no_semi cs p h2
    · rw [splitSemi, if_neg h] at hp
      cases hs : splitSemi cs with
      | nil => exact absurd hs (splitSemi_ne_nil cs)
      | cons q qs =>
        rw [hs] at hp
        rcases List.mem_cons.mp hp with h2 | h2
        · subst h2
          intro hmem
          rcases List.mem_cons.mp hmem with h3 | h3
          · exact h h3.symm
          · exact splitSemi_no_semi cs q (hs ▸ List.mem_cons_self q qs) h3
        · exact splitSemi_no_semi cs p (hs ▸ List.mem_cons_of_mem q h2)

theorem splitSemi_no_semi_id : ∀ l : List Char, ';' ∉ l → splitSemi l = [l]
  | [] => fun _ => rfl
  | c :: cs => by
    intro h
    have hc : c ≠ ';' := fun hc => h (hc ▸ List.mem_cons_self c cs)
    have hcs : ';' ∉ cs := fun h2 => h (List.mem_cons_of_mem c h2)
    rw [splitSemi, if_neg hc, splitSemi_no_semi_id cs hcs]

theorem splitSemi_append : ∀ p rest : List Char, ';' ∉ p →
    splitSemi (p ++ ';' :: rest) = p :: splitSemi rest
  | [], rest => by intro _; simp [splitSemi]
  | c :: p', rest => by
    intro h
    have hc : c ≠ ';' := fun hc => h (hc ▸ List.mem_cons_self c p')
    have hp : ';' ∉ p' := fun h2 => h (List.mem_cons_of_mem c h2)
    rw [List.cons_append, splitSemi, if_neg hc, splitSemi_append p' rest hp]

theorem joinSemi_split : ∀ L : List (List Char), (∀ p ∈ L, ';' ∉ p) → L ≠ [] →
    splitSemi (joinSemi L) = L
  | [], _, h => absurd rfl h
  | [p], h, _ => by
    rw [joinSemi, splitSemi_no_semi_id p (h p (List.mem_cons_self p []))]
  | p :: q :: ps, h, _ => by
    rw [joinSemi, splitSemi_append p _ (h p (List.mem_cons_self p (q :: ps))),
      joinSemi_split (q :: ps) (fun x hx => h x (List.mem_cons_of_mem p hx))
        (by simp)]

/-! Fixpoint facts about the cleaned surface parts. -/

theorem cleanPart_fix {q : String} {p : List Char} (hp : ';' ∉ p)
    (h : cleanPart p = some q) :
    cleanPart q.toList = some q ∧ q.toList ≠ [] ∧ ';' ∉ q.toList := by
  unfold cleanPart at h
  by_cases he : (trimChars p).isEmpty = true
  · rw [if_pos he] at h; exact absurd h (by simp)
  · rw [if_neg he] at h
    have hq : q = String.mk ((trimChars p).map Char.toLower) := (Option.some.inj h).symm
    have hql : q.toList = (trimChars p).map Char.toLower := by rw [hq]; rfl
    have hne : trimChars p ≠ [] := fun h0 => he (by rw [h0]; rfl)
    have hmapne : (trimChars p).map Char.toLower ≠ [] := by
      intro h0
      exact hne (List.map_eq_nil.mp h0)
    have htrim : trimChars q.toList = (trimChars p).map Char.toLower := by
      rw [hql, trimChars_map_toLower, trimChars_idem]
    refine ⟨?_, ?_, ?_⟩
    · unfold cleanPart
      rw [htrim, if_neg (by simp only [List.isEmpty_iff]; exact hmapne)]
      rw [List.map_map]
      have hff : (Char.toLower ∘ Char.toLower) = Char.toLower := funext charToLower_idem
      rw [hff, ← hq]
    · rw [hql]; exact hmapne
    · rw [hql]
      intro hmem
      obtain ⟨c, hc, hlc⟩ := List.mem_map.mp hmem
      exact hp (mem_of_mem_trimChars (charToLower_semi hlc ▸ hc))

theorem canonParts_mem {s : String} {q : String} (h : q ∈ canonParts s) :
    cleanPart q.toList = some q ∧ q.toList ≠ [] ∧ ';' ∉ q.toList := by
  unfold canonParts at h
  have h2 := (List.perm_insertionSort strLe _).subset h
  obtain ⟨p, hp, hcp⟩ := List.mem_filterMap.mp h2
  exact cleanPart_fix (splitSemi_no_semi _ p hp) hcp

theorem filterMap_clean_fix : ∀ P : List String,
    (∀ q ∈ P, cleanPart q.toList = some q) →
    (P.map String.toList).filterMap cleanPart = P
  | [], _ => rfl
  | q :: P, h => by
    rw [List.map_cons, List.filterMap_cons, h q (List.mem_cons_self q P)]
    rw [filterMap_clean_fix P (fun x hx => h x (List.mem_cons_of_mem q hx))]

theorem canonParts_sorted (s : String) : List.Sorted strLe (canonParts s) := by
  unfold canonParts
  exact List.sorted_insertionSort strLe _

theorem canonParts_of_parts (P : List String)
    (hfix : ∀ q ∈ P, cleanPart q.toList = some q)
    (hnosemi : ∀ q ∈ P, ';' ∉ q.toList) (hne : P ≠ [])
    (hsorted : List.Sorted strLe P) :
    canonParts (String.mk (joinSemi (P.map String.toList))) = P := by
  unfold canonParts
  rw [show (String.mk (joinSemi (P.map String.toList))).toList
      = joinSemi (P.map String.toList) from rfl]
  rw [joinSemi_split _
      (by intro p hp
          obtain ⟨q, hq, rfl⟩ := List.mem_map.mp hp
          exact hnosemi q hq)
      (fun h0 => hne (List.map_eq_nil.mp h0)),
    filterMap_clean_fix P hfix]
  exact List.Sorted.insertionSort_eq hsorted

theorem canonParts_out (s : String) (hne : canonParts s ≠ []) :
    canonParts (String.mk (joinSemi ((canonParts s).map String.toList)))
      = canonParts s :=
  canonParts_of_parts (canonParts s)
    (fun q hq => (canonParts_mem hq).1)
    (fun q hq => (canonParts_mem hq).2.2)
    hne (canonParts_sorted s)

/-! Facts about the read-count order and the stable group sort. -/

theorem optLeB_total (a b : Option Int) : optLeB a b = true ∨ optLeB b a = true := by
  match a, b with
  | none, _ => exact Or.inl rfl
  | some _, none => exact Or.inr rfl
  | some x, some y =>
    rcases Int.le_total x y with h | h
    · exact Or.inl (by simp [optLeB, h])
    · exact Or.inr (by simp [optLeB, h])

theorem optLeB_refl (a : Option Int) : optLeB a a = true := by
  match a with
  | none => rfl
  | some x => simp [optLeB]

theorem optLeB_antisymm {a b : Option Int} (h1 : optLeB a b = true)
    (h2 : optLeB b a = true) : a = b := by
  match a, b with
  | none, none => rfl
  | none, some _ => simp [optLeB] at h2
  | some _, none => simp [optLeB] at h1
  | some x, some y =>
    simp only [optLeB, decide_eq_true_eq] at h1 h2
    exact congrArg some (Int.le_antisymm h1 h2)

theorem lexBefore_iff_readsGe {x b : Nat × Record} (h : x.1 ≤ b.1) :
    lexBefore x b ↔ readsGe x.2 b.2 := by
  unfold lexBefore readsGe optLtB
  constructor
  · rintro (h1 | ⟨h1, _⟩)
    · rw [Bool.not_eq_true'] at h1
      rcases optLeB_total b.2.num_reads x.2.num_reads with h2 | h2
      · exact h2
      · exact absurd h2 (by rw [h1]; simp)
    · rw [h1]; exact optLeB_refl _
  · intro h1
    by_cases h2 : optLeB x.2.num_reads b.2.num_reads = true
    · exact Or.inr ⟨optLeB_antisymm h2 h1, h⟩
    · exact Or.inl (by rw [Bool.not_eq_true] at h2; rw [h2]; rfl)

theorem map_snd_orderedInsert (x : Nat × Record) :
    ∀ L : List (Nat × Record), (∀ y ∈ L, x.1 < y.1) →
      (List.orderedInsert lexBefore x L).map Prod.snd
        = List.orderedInsert readsGe x.2 (L.map Prod.snd)
  | [], _ => rfl
  | b :: L, h => by
    have hx : x.1 < b.1 := h b (List.mem_cons_self b L)
    by_cases hc : readsGe x.2 b.2
    · have hc2 : lexBefore x b := (lexBefore_iff_readsGe (Nat.le_of_lt hx)).mpr hc
      rw [List.orderedInsert, if_pos hc2, List.map_cons, List.map_cons,
        List.orderedInsert, if_pos hc]
    · have hc2 : ¬ lexBefore x b :=
        fun h2 => hc ((lexBefore_iff_readsGe (Nat.le_of_lt hx)).mp h2)
      rw [List.orderedInsert, if_neg hc2, List.map_cons, List.map_cons,
        List.orderedInsert, if_neg hc,
        map_snd_orderedInsert x L (fun y hy => h y (List.mem_cons_of_mem b hy))]

theorem map_snd_insertionSort :
    ∀ L : List (Nat × Record), L.Pairwise (fun a b => a.1 < b.1) →
      (List.insertionSort lexBefore L).map Prod.snd
        = List.insertionSort readsGe (L.map Prod.snd)
  | [], _ => rfl
  | x :: L, h => by
    obtain ⟨hx, hL⟩ := List.pairwise_cons.mp h
    rw [List.insertionSort, List.map_cons, List.insertionSort,
      map_snd_orderedInsert x _
        (fun y hy => hx y ((List.perm_insertionSort lexBefore L).subset hy)),
      map_snd_insertionSort L hL]

theorem enumFrom_pairwise {α : Type} (n : Nat) (l : List α) :
    (List.enumFrom n l).Pairwise (fun a b => a.1 < b.1) := by
  induction l generalizing n with
  | nil => simp
  | cons a l ih =>
    rw [List.enumFrom_cons]
    refine List.Pairwise.cons ?_ (ih (n + 1))
    rintro ⟨i, x⟩ hy
    have := (List.mem_enumFrom hy).1
    simpa using Nat.lt_of_lt_of_le (Nat.lt_succ_self n) this

/-- The claim-side ordering (descending reads, ties by input position)
coincides with the pipeline's stable group sort. -/
theorem specOrdered_eq (rows : List Record) (k : String) :
    specOrdered rows k = sortReads (groupRows rows k) := by
  unfold specOrdered sortReads groupRows
  have henum : rows.enum = List.enumFrom 0 rows := rfl
  rw [henum, map_snd_insertionSort _
    (List.Pairwise.filter _ (enumFrom_pairwise 0 rows))]
  congr 1
  have h : (fun p : Nat × Record => resolve p.2 == some k)
      = ((fun r => resolve r == some k) ∘ Prod.snd) := rfl
  rw [h, ← List.filter_map, ← henum, List.enum_map_snd]

/-- Summing the non-missing read counts equals summing with missing as 0. -/
theorem sum_reads_map : ∀ l : List Record,
    (l.filterMap Record.num_reads).sum = (l.map (fun r => r.num_reads.getD 0)).sum
  | [] => rfl
  | r :: l => by
    cases h : r.num_reads with
    | none =>
      rw [List.filterMap_cons_none (by exact h), List.map_cons, List.sum_cons,
        sum_reads_map l, h]
      simp
    | some x =>
      rw [List.filterMap_cons_some (by exact h), List.map_cons,
        List.sum_cons, List.sum_cons, sum_reads_map l, h]
      rfl

/-! Claim theorems. -/

/-- C1 counterexample: a raw record whose three candidate identity fields
are all null is NOT retained in the pipeline's output: `groupby` drops the
null key, so the cleaned output of a frame holding only that record is
empty, refuting the claim that such a record is surfaced rather than
silently dropped. -/
theorem all_null_id_dropped :
    rowAllNull.cols .sl_name = none ∧ rowAllNull.cols .metasub_name = none ∧
      rowAllNull.cols .uuid = none ∧ lon_clean [rowAllNull] = [] := by
  refine ⟨rfl, rfl, rfl, by decide⟩

/-- C1 amended: a canonical row with identifier `s` exists exactly when some
raw row resolves to `s`.  Rows whose resolved identifier is null (all three
candidates null) contribute to no canonical row — they are silently dropped
by the groupby — while rows resolving to a blank string are retained,
grouped together under that blank identifier. -/
theorem london_key_membership (rows : List Record) (s : String) :
    (∃ o ∈ lon_clean rows, o.sample_id = s) ↔ ∃ r ∈ rows, resolve r = some s := by
  constructor
  · rintro ⟨o, ho, hs⟩
    obtain ⟨k, hk, rfl⟩ := List.mem_map.mp ho
    have hks : k = s := hs
    subst hks
    have hk2 : k ∈ rows.filterMap resolve := by
      have h3 := (List.perm_insertionSort strLe _).subset hk
      exact List.mem_dedup.mp h3
    exact List.mem_filterMap.mp hk2
  · rintro ⟨r, hr, hres⟩
    refine ⟨aggregate rows s, List.mem_map_of_mem _ ?_, rfl⟩
    have h1 : s ∈ (rows.filterMap resolve).dedup :=
      List.mem_dedup.mpr (List.mem_filterMap.mpr ⟨r, hr, hres⟩)
    exact ((List.perm_insertionSort strLe _).mem_iff).mpr h1

/-- C2: the canonical record's `num_reads` equals the arithmetic sum of its
group's read counts after numeric coercion, missing or non-numeric values
contributing 0; the sum itself is an `Int`, never missing. -/
theorem london_reads_sum (rows : List Record) (out : OutRecord)
    (h : out ∈ lon_clean rows) :
    out.num_reads
      = ((rows.filter (fun r => resolve r == some out.sample_id)).map
          (fun r => r.num_reads.getD 0)).sum := by
  obtain ⟨k, hk, rfl⟩ := List.mem_map.mp h
  show ((sortReads (groupRows rows k)).filterMap Record.num_reads).sum
      = ((rows.filter (fun r => resolve r == some k)).map
          (fun r => r.num_reads.getD 0)).sum
  rw [sum_reads_map]
  exact List.Perm.sum_eq (List.Perm.map _ (List.perm_insertionSort readsGe _))

theorem london_reads_sum_witness :
    outM1 ∈ lon_clean rowsM1 ∧
      outM1.num_reads
        = ((rowsM1.filter (fun r => resolve r == some outM1.sample_id)).map
            (fun r => r.num_reads.getD 0)).sum :=
  ⟨by decide, london_reads_sum rowsM1 outM1 (by decide)⟩

/-- C3: every non-`num_reads` column of a canonical record is the first
non-missing value of its group when the rows are ordered by descending read
count, ties broken by original input order. -/
theorem london_first_by_reads (rows : List Record) (out : OutRecord)
    (h : out ∈ lon_clean rows) (c : Col) :
    out.cols c
      = first_nonnull ((specOrdered rows out.sample_id).map (fun r => r.cols c)) := by
  obtain ⟨k, hk, rfl⟩ := List.mem_map.mp h
  show first_nonnull ((sortReads (groupRows rows k)).map (fun r => r.cols c))
      = first_nonnull ((specOrdered rows k).map (fun r => r.cols c))
  rw [specOrdered_eq]

theorem london_first_by_reads_witness :
    outM1 ∈ lon_clean rowsM1 ∧
      outM1.cols Col.station
        = first_nonnull ((specOrdered rowsM1 outM1.sample_id).map
            (fun r => r.cols Col.station)) :=
  ⟨by decide, london_first_by_reads rowsM1 outM1 (by decide) Col.station⟩

/-- C4: the resolved identifier is the first non-missing candidate among
`sl_name`, `metasub_name`, `uuid` (in that order) whenever some candidate
is non-missing, missing meaning null or blank after trimming; a blank
candidate triggers the same fallback as a null one. -/
theorem resolve_first_candidate (sl ms uu : Option String) (s : String)
    (h : missingOrBlank sl = false ∨ missingOrBlank ms = false ∨
      missingOrBlank uu = false)
    (hs : strTrim s = "") :
    List.find? (fun v => !(missingOrBlank v)) [sl, ms, uu]
        = some (resolve3 sl ms uu)
      ∧ resolve3 (some s) ms uu = resolve3 none ms uu
      ∧ resolve3 sl (some s) uu = resolve3 sl none uu := by
  have hbs : missingOrBlank (some s) = true := by
    simp [missingOrBlank, hs]
  refine ⟨?_, ?_, ?_⟩
  · cases h1 : missingOrBlank sl with
    | false => simp [resolve3, h1, List.find?]
    | true =>
      cases h2 : missingOrBlank ms with
      | false => simp [resolve3, h1, h2, List.find?]
      | true =>
        cases h3 : missingOrBlank uu with
        | false => simp [resolve3, h1, h2, h3, List.find?]
        | true => simp [h1, h2, h3] at h
  · unfold resolve3
    rw [if_pos hbs, if_pos (show missingOrBlank none = true from rfl)]
  · unfold resolve3
    by_cases h1 : missingOrBlank sl = true
    · rw [if_pos h1, if_pos h1, if_pos hbs,
        if_pos (show missingOrBlank none = true from rfl)]
    · rw [if_neg h1, if_neg h1]

theorem resolve_first_candidate_witness :
    (List.find? (fun v => !(missingOrBlank v)) [some " ", some "M1", some "u1"]
        = some (resolve3 (some " ") (some "M1") (some "u1")))
      ∧ resolve3 (some " ") (some "M1") (some "u1")
          = resolve3 none (some "M1") (some "u1")
      ∧ resolve3 (some " ") (some " ") (some "u1")
          = resolve3 (some " ") none (some "u1") :=
  resolve_first_candidate (some " ") (some "M1") (some "u1") " "
    (by decide) (by decide)

/-- C5: a canonical record lands in the air partition iff its project field
upper-cased equals `"CSD17_AIR"` or its sample-type field lower-cased
contains `"air"`; every canonical record is in exactly one of the two
partitions. -/
theorem partition_air_surface (rows : List Record) (o : OutRecord)
    (h : o ∈ lonAll rows) :
    (o ∈ lon_air rows ↔ airSpec o)
      ∧ (o ∈ lon_air rows ∨ o ∈ lon_surface rows)
      ∧ ¬ (o ∈ lon_air rows ∧ o ∈ lon_surface rows) := by
  have hair : o ∈ lon_air rows ↔ isAir o = true := by
    unfold lon_air
    rw [List.mem_filter]
    simp [h]
  have hsurf : o ∈ lon_surface rows ↔ isAir o = false := by
    unfold lon_surface
    rw [List.mem_filter]
    simp [h]
  have hspec : isAir o = true ↔ airSpec o := by
    constructor
    · intro hb
      unfold isAir at hb
      rw [Bool.or_eq_true] at hb
      rcases hb with hb | hb
      · rw [beq_iff_eq] at hb
        cases hp : o.cols .project with
        | none => rw [hp] at hb; exact absurd hb (by decide)
        | some p => exact Or.inl ⟨p, hp, by rw [hp] at hb; exact hb⟩
      · cases ht : o.cols .sample_type with
        | none => rw [ht] at hb; exact absurd hb (by decide)
        | some t => exact Or.inr ⟨t, ht, by rw [ht] at hb; exact hb⟩
    · intro hs
      unfold isAir
      rw [Bool.or_eq_true]
      rcases hs with ⟨p, hp, hval⟩ | ⟨t, ht, hval⟩
      · exact Or.inl (by rw [hp, beq_iff_eq]; exact hval)
      · exact Or.inr (by rw [ht]; exact hval)
  refine ⟨hair.trans hspec, ?_, ?_⟩
  · rcases Bool.eq_false_or_eq_true (isAir o) with hb | hb
    · exact Or.inl (hair.mpr hb)
    · exact Or.inr (hsurf.mpr hb)
  · rintro ⟨h1, h2⟩
    rw [hair] at h1
    rw [hsurf] at h2
    rw [h1] at h2
    exact absurd h2 (by decide)

theorem partition_air_surface_witness :
    (outAir ∈ lon_air [rowNoReads] ↔ airSpec outAir)
      ∧ (outAir ∈ lon_air [rowNoReads] ∨ outAir ∈ lon_surface [rowNoReads])
      ∧ ¬ (outAir ∈ lon_air [rowNoReads] ∧ outAir ∈ lon_surface [rowNoReads]) :=
  partition_air_surface [rowNoReads] outAir (by decide)

/-- C6: the surface canonicalizer is idempotent (on every input, missing or
not), and permuting the ';'-delimited parts of the input never changes the
canonical key. -/
theorem canon_surface_idem_comm :
    (∀ s : Option String, canon_surface (canon_surface s) = canon_surface s)
      ∧ ∀ s₁ s₂ : String, (splitSemi s₁.toList).Perm (splitSemi s₂.toList) →
          canon_surface (some s₁) = canon_surface (some s₂) := by
  constructor
  · intro s
    match s with
    | none => rfl
    | some s =>
      by_cases he : (canonParts s).isEmpty = true
      · have h1 : canon_surface (some s) = none := by
          simp only [canon_surface]; rw [if_pos he]
        rw [h1]
        rfl
      · have hne : canonParts s ≠ [] := fun h0 => he (by rw [h0]; rfl)
        have hout : canon_surface (some s)
            = some (String.mk (joinSemi ((canonParts s).map String.toList))) := by
          simp only [canon_surface]; rw [if_neg he]
        rw [hout]
        simp only [canon_surface]
        rw [canonParts_out s hne, if_neg he]
  · intro s₁ s₂ hperm
    have hP : canonParts s₁ = canonParts s₂ := by
      unfold canonParts
      exact sortStrings_congr (hperm.filterMap cleanPart)
    simp only [canon_surface]
    rw [hP]

theorem canon_surface_idem_comm_witness :
    canon_surface (canon_surface (some "Bench ; Platform"))
        = canon_surface (some "Bench ; Platform")
      ∧ canon_surface (some "platform;bench")
          = canon_surface (some "bench;platform") :=
  ⟨canon_surface_idem_comm.1 (some "Bench ; Platform"),
    canon_surface_idem_comm.2 "platform;bench" "bench;platform" (by decide)⟩

/-- C7 counterexample: the station cell `"nan"` is non-missing and
non-blank after trimming, yet the deriver does not return it (it falls back
to the line cell), refuting the claim as stated. -/
theorem pick_station_nan_counterexample :
    ¬ ∀ st ln : Option String,
      (∃ s, st = some s ∧ strTrim s ≠ "") → pick_station st ln = st := by
  intro hclaim
  have h := hclaim (some "nan") (some "Central") ⟨"nan", rfl, by decide⟩
  exact absurd h (by decide)

/-- C7 amended: `station_name` equals the station cell whenever that cell
holds a string whose stripped text is none of `""`, `"nan"`, `"None"`;
otherwise the line cell under the same test; otherwise missing. -/
theorem pick_station_amended (st ln : Option String) :
    pick_station st ln
      = if keepVal st then st else if keepVal ln then ln else none := by
  have hiff : ∀ v : Option String, notBadVal v = true ↔ keepVal v := by
    intro v
    match v with
    | none => simp [notBadVal, keepVal]
    | some s => simp [notBadVal, keepVal, and_assoc]
  unfold pick_station
  by_cases h1 : keepVal st
  · rw [if_pos ((hiff st).mpr h1), if_pos h1]
  · rw [if_neg (fun hb => h1 ((hiff st).mp hb)), if_neg h1]
    by_cases h2 : keepVal ln
    · rw [if_pos ((hiff ln).mpr h2), if_pos h2]
    · rw [if_neg (fun hb => h2 ((hiff ln).mp hb)), if_neg h2]

/-- C8 counterexample: a singleton identifier group whose only record has a
missing read count is not copied verbatim: the canonical `num_reads`
becomes 0 although the input's was missing. -/
theorem singleton_missing_reads_counterexample :
    rowNoReads.num_reads = none ∧ lon_clean [rowNoReads] = [outNoReads]
      ∧ outNoReads.num_reads = 0 := by
  refine ⟨rfl, by decide, by decide⟩

/-- C8 amended: a singleton identifier group is copied verbatim in every
kept column; its `num_reads` equals the input's read count when present and
becomes 0 when the input's was missing. -/
theorem singleton_group_copy (rows : List Record) (out : OutRecord)
    (h : out ∈ lon_clean rows) (r : Record)
    (hg : rows.filter (fun x => resolve x == some out.sample_id) = [r])
    (c : Col) :
    out.cols c = r.cols c ∧ out.num_reads = r.num_reads.getD 0 := by
  obtain ⟨k, hk, rfl⟩ := List.mem_map.mp h
  have hg2 : groupRows rows k = [r] := hg
  have hsr : sortReads (groupRows rows k) = [r] := by rw [hg2]; rfl
  constructor
  · show first_nonnull ((sortReads (groupRows rows k)).map (fun x => x.cols c))
        = r.cols c
    rw [hsr]
    cases hv : r.cols c with
    | none => simp [first_nonnull, hv]
    | some v => simp [first_nonnull, hv]
  · show ((sortReads (groupRows rows k)).filterMap Record.num_reads).sum
        = r.num_reads.getD 0
    rw [hsr]
    cases hv : r.num_reads with
    | none => simp [List.filterMap_cons, hv]
    | some x => simp [List.filterMap_cons, hv]

theorem singleton_group_copy_witness :
    outOneRead.cols Col.station = rowOneRead.cols Col.station
      ∧ outOneRead.num_reads = rowOneRead.num_reads.getD 0 :=
  singleton_group_copy [rowOneRead] outOneRead (by decide) rowOneRead
    (by decide) Col.station

/-- C9: a station cell whose stripped text is the literal `"nan"` or
`"None"` makes the deriver fall back to the line cell exactly as a null
station cell does. -/
theorem pick_station_nan_fallback (s : String) (ln : Option String)
    (h : strTrim s = "nan" ∨ strTrim s = "None") :
    pick_station (some s) ln = pick_station none ln := by
  have hb : notBadVal (some s) = false := by
    rcases h with h | h <;> simp [notBadVal, h]
  have hnone : notBadVal none = false := rfl
  unfold pick_station
  rw [hb, hnone]
  simp

theorem pick_station_nan_fallback_witness :
    pick_station (some "nan") (some "Central")
      = pick_station none (some "Central") :=
  pick_station_nan_fallback "nan" (some "Central") (Or.inl (by decide))

/-- C10: a non-missing input all of whose ';'-delimited parts are blank
canonicalizes to missing, never to an empty string. -/
theorem canon_surface_blank_parts (s : String)
    (h : ∀ p ∈ splitSemi s.toList, trimChars p = []) :
    canon_surface (some s) = none := by
  have h2 : (splitSemi s.toList).filterMap cleanPart = [] :=
    List.filterMap_eq_nil.mpr (fun p hp => by unfold cleanPart; rw [h p hp]; rfl)
  have hP : canonParts s = [] := by
    unfold canonParts
    rw [h2]
    rfl
  simp only [canon_surface]
  rw [hP]
  rfl

theorem canon_surface_blank_parts_witness :
    canon_surface (some " ; ") = none :=
  canon_surface_blank_parts " ; " (by decide)
